import Mathlib

/-!
Verification of the TCL formatter core (`src/formatter.py`): a shallow
embedding of the delimiter validator, line-continuation folding, the
indentation engine, the list-expansion tokenizer, the set-command alignment
engine and the formatting pipeline, together with theorems about the
specified behaviour.

Python strings are modelled as `List Char`; Python `int` is `Int` where a
value can go negative, `Nat` otherwise; Python functions that can raise an
exception are modelled in `Option` with `none` for the raised exception.
-/

/-- A single line of source text, without its trailing newline. -/
abbrev Line := List Char

/-- ASCII whitespace as stripped by Python `str.strip` (the inputs handled
by the formatter contain no exotic Unicode whitespace). -/
def isPyWs (c : Char) : Bool :=
  c = ' ' || c = '\t' || c = '\n' || c = '\r' || c = '\x0b' || c = '\x0c'

/-- Python `str.lstrip()`. -/
def pyLstrip (l : Line) : Line := l.dropWhile isPyWs

/-- Python `str.rstrip()`. -/
def pyRstrip (l : Line) : Line := (l.reverse.dropWhile isPyWs).reverse

/-- Python `str.strip()`. -/
def pyStrip (l : Line) : Line := pyLstrip (pyRstrip l)

/-- Python `s.split(None, 1)`: drop leading whitespace, cut the first
whitespace-free token, drop the separating whitespace run; a remainder
that is empty contributes no element. -/
def pySplitOnce (s : Line) : List Line :=
  let t := s.dropWhile isPyWs
  if t = [] then []
  else
    let tok := t.takeWhile (fun c => !isPyWs c)
    let rest := (t.dropWhile (fun c => !isPyWs c)).dropWhile isPyWs
    if rest = [] then [tok] else [tok, rest]

/-- `1`-based numbering of a list, starting at `n` (`enumerate` shifted). -/
def numberFrom (n : Nat) : List α → List (Nat × α)
  | [] => []
  | a :: rest => (n, a) :: numberFrom (n + 1) rest

/-- `SyntaxError` dataclass: one diagnostic of the validator. -/
structure SynError where
  line_number : Nat
  message : String
  error_type : String
deriving DecidableEq, Repr

/-- `StackFrame` dataclass: one unmatched opener on the validation stack. -/
structure StackFrame where
  char : Char
  line_number : Nat
  position : Nat
deriving DecidableEq, Repr

/-- Validator state: the stack of open delimiters (top at the head) and the
diagnostics accumulated so far, in emission order. -/
structure VState where
  stack : List StackFrame
  errors : List SynError
deriving DecidableEq, Repr

namespace SyntaxValidator

/-- `_push`: push an opening character onto the stack. -/
def push (c : Char) (ln pos : Nat) (stk : List StackFrame) : List StackFrame :=
  ⟨c, ln, pos⟩ :: stk

/-- `_pop`: pop and validate a matching character, returning the diagnostic
(if any) and the resulting stack.  On a kind mismatch the wrongly popped
frame is pushed back, so the stack is returned unchanged. -/
def pop (c : Char) (ln pos : Nat) (stk : List StackFrame) :
    Option SynError × List StackFrame :=
  match stk with
  | [] =>
    (some ⟨ln, "Unexpected closing " ++ c.toString ++ " with no matching opening",
       if c = '}' then "brace" else "quote"⟩, [])
  | f :: rest =>
    if c = '}' ∧ f.char ≠ '{' then
      (some ⟨ln, "Unexpected closing brace, expected closing quote from line "
          ++ toString f.line_number, "brace"⟩, f :: rest)
    else if c = '"' ∧ f.char ≠ '"' then
      (some ⟨ln, "Unexpected closing quote, expected closing brace from line "
          ++ toString f.line_number, "quote"⟩, f :: rest)
    else (none, rest)

/-- The character loop of `_process_line`: a backslash with a following
character skips both; a quote closes when inside a string and opens
otherwise; braces are handled only outside strings. -/
def procChars : List Char → Nat → Nat → Bool → VState → VState
  | [], _, _, _, st => st
  | c :: rest, ln, pos, instr, st =>
    if c = '\\' then
      match rest with
      | [] => st
      | _ :: rest2 => procChars rest2 ln (pos + 2) instr st
    else if c = '"' then
      if instr then
        let r := pop '"' ln pos st.stack
        procChars rest ln (pos + 1) false ⟨r.2, st.errors ++ r.1.toList⟩
      else procChars rest ln (pos + 1) true ⟨push '"' ln pos st.stack, st.errors⟩
    else if instr then procChars rest ln (pos + 1) instr st
    else if c = '{' then
      procChars rest ln (pos + 1) instr ⟨push '{' ln pos st.stack, st.errors⟩
    else if c = '}' then
      let r := pop '}' ln pos st.stack
      procChars rest ln (pos + 1) instr ⟨r.2, st.errors ++ r.1.toList⟩
    else procChars rest ln (pos + 1) instr st

/-- `_process_line`: comment lines (stripped text starting with `#`) are
skipped; every other line is scanned character by character with the
in-string flag starting fresh at `false`. -/
def process_line (l : Line) (ln : Nat) (st : VState) : VState :=
  if (pyStrip l).head? = some '#' then st
  else procChars l ln 0 false st

/-- The line loop of `validate`. -/
def run_lines : List (Nat × Line) → VState → VState
  | [], st => st
  | (ln, l) :: rest, st => run_lines rest (process_line l ln st)

/-- The diagnostic reported for one frame left on the stack at end of
input (`_check_remaining_stack` loop body). -/
def frameError (f : StackFrame) : SynError :=
  if f.char = '{' then ⟨f.line_number, "Unmatched opening brace", "brace"⟩
  else ⟨f.line_number, "Unmatched opening quote", "quote"⟩

/-- `_check_remaining_stack`: Python iterates the stack list from its
bottom (oldest frame) to its top, so with the top at the head here the
frames are reported in reverse order. -/
def check_remaining_stack (stk : List StackFrame) : List SynError :=
  stk.reverse.map frameError

/-- Trailing-backslash test used by `_handle_line_continuations`:
`line.rstrip().endswith(backslash)`. -/
def endsBS (l : Line) : Bool := l.getLast? = some '\\'

/-- The fused loops of `_handle_line_continuations`: `line` is the line
being grown, `num` its (first physical line's) number, `next` the number
of the next physical line, and the fourth argument the remaining physical
lines.  While the grown line's rstripped text ends in a backslash and a
next line exists, the backslash is dropped and the next line appended. -/
def handleContAux : Line → Nat → Nat → List Line → List (Nat × Line)
  | line, num, _, [] => [(num, line)]
  | line, num, next, l2 :: rest =>
    if endsBS (pyRstrip line) then
      handleContAux ((pyRstrip line).dropLast ++ l2) num (next + 1) rest
    else (num, line) :: handleContAux l2 next (next + 1) rest

/-- `_handle_line_continuations`: fold continuation lines, keeping the
first physical line's 1-based number for each folded line. -/
def handle_line_continuations : List Line → List (Nat × Line)
  | [] => []
  | l :: rest => handleContAux l 1 2 rest

/-- `validate`: fold continuations, process every folded line, then report
every frame left on the stack. -/
def validate (lines : List Line) : List SynError :=
  let st := run_lines (handle_line_continuations lines) ⟨[], []⟩
  st.errors ++ check_remaining_stack st.stack

end SyntaxValidator

namespace AlignmentEngine

/-- One parsed `set` assignment (`_parse_set_command` result):
leading whitespace, variable name, value text. -/
structure SetCmd where
  indent : Line
  varName : Line
  value : Line
deriving DecidableEq, Repr

/-- `_is_set_command`: the stripped line starts with `set ` and its first
whitespace-delimited token is exactly `set`. -/
def is_set_command (s : Line) : Bool :=
  ("set ".toList).isPrefixOf s &&
    (match pySplitOnce s with
     | tok :: _ => tok = "set".toList
     | [] => false)

/-- `_parse_set_command`: split a set command into indent, variable and
value; `none` when there is no value token. -/
def parse_set_command (line : Line) : Option SetCmd :=
  let indent := line.takeWhile isPyWs
  let s := pyStrip line
  if ("set ".toList).isPrefixOf s then
    match pySplitOnce (s.drop 4) with
    | [v, val] => some ⟨indent, v, val⟩
    | _ => none
  else none

/-- The loop of `_find_set_blocks` over `enumerate(lines)`: `cur` is the
current block of line indices, `curInd` its indent width. -/
def findBlocksAux : List (Nat × Line) → List Nat → Option Nat → List (List Nat)
  | [], cur, _ => if cur.length > 1 then [cur] else []
  | (i, line) :: rest, cur, curInd =>
    let s := pyStrip line
    if s = [] then findBlocksAux rest cur curInd
    else if s.head? = some '#' then
      (if cur.length > 1 then [cur] else []) ++ findBlocksAux rest [] none
    else if is_set_command s then
      let ind := (line.takeWhile isPyWs).length
      match curInd with
      | none => findBlocksAux rest (cur ++ [i]) (some ind)
      | some ci =>
        if ind = ci then findBlocksAux rest (cur ++ [i]) (some ci)
        else (if cur.length > 1 then [cur] else []) ++ findBlocksAux rest [i] (some ind)
    else
      (if cur.length > 1 then [cur] else []) ++ findBlocksAux rest [] none

/-- `_find_set_blocks`: blocks of 2+ consecutive same-indent set commands. -/
def find_set_blocks (lines : List Line) : List (List Nat) :=
  findBlocksAux (numberFrom 0 lines) [] none

/-- `_align_block`: parse the block's lines (silently dropping lines that
fail to parse), compute the longest variable name, and rebuild each parsed
line.  `none` models the `ValueError` Python raises in `max()` when no
line parses. -/
def align_block (lines : List Line) (idxs : List Nat) : Option (List Line) :=
  let parsed := (idxs.map (fun i => lines.getD i [])).filterMap parse_set_command
  match parsed with
  | [] => none
  | p :: ps =>
    let maxVar := (ps.map (fun c => c.varName.length)).foldl max p.varName.length
    some ((p :: ps).map (fun c =>
      c.indent ++ "set ".toList ++ c.varName
        ++ List.replicate (maxVar - c.varName.length + 1) ' ' ++ c.value))

/-- The write-back loop of `align_set_commands`
(`result[line_idx] = aligned_block[i]`): `none` models the `IndexError`
raised when the aligned block is shorter than the index list. -/
def write_aligned : List Line → List Nat → List Line → Option (List Line)
  | res, [], _ => some res
  | res, i :: is2, a :: as2 => write_aligned (res.set i a) is2 as2
  | _, _ :: _, [] => none

/-- The block loop of `align_set_commands`. -/
def alignGo : List (List Nat) → List Line → Option (List Line)
  | [], res => some res
  | b :: bs, res =>
    match align_block res b with
    | none => none
    | some al =>
      match write_aligned res b al with
      | none => none
      | some res2 => alignGo bs res2

/-- `align_set_commands`; `none` models an uncaught exception. -/
def align_set_commands (lines : List Line) : Option (List Line) :=
  if lines = [] then some lines
  else
    let blocks := find_set_blocks lines
    if blocks = [] then some lines
    else alignGo blocks lines

/-- `apply_single_space`: rewrite every parsable set command with exactly
one space between variable and value; everything else is kept as-is. -/
def apply_single_space (lines : List Line) : List Line :=
  lines.map (fun line =>
    if is_set_command (pyStrip line) then
      match parse_set_command line with
      | some p => p.indent ++ "set ".toList ++ p.varName ++ [' '] ++ p.value
      | none => line
    else line)

end AlignmentEngine

namespace IndentationEngine

/-- `' ' * n` for a Python int `n` (empty for `n ≤ 0`). -/
def spaces (n : Int) : Line := List.replicate n.toNat ' '

/-- First whitespace-delimited token of a line (`line.split()[0]`,
empty when there are no tokens). -/
def firstWord (s : Line) : Line :=
  (s.dropWhile isPyWs).takeWhile (fun c => !isPyWs c)

/-- `BLOCK_KEYWORDS`. -/
def blockKeywords : List Line :=
  ["if", "else", "foreach", "while", "switch", "proc", "namespace"].map String.toList

/-- The `common_commands` list of `_is_continuation_line`. -/
def commonCommands : List Line :=
  ["set", "puts", "return", "source", "package", "namespace"].map String.toList

/-- `_is_continuation_line`: the source heuristic, which returns `False`
on every input (each branch returns `False`, including the final one). -/
def is_continuation_line (s : Line) : Bool :=
  if s.head? = some '#' then false
  else if s.head? = some '{' ∨ s.head? = some '}' then false
  else if blockKeywords.contains (firstWord s) then false
  else if commonCommands.contains (firstWord s) then false
  else false

/-- `_calculate_indent_level`. -/
def calculate_indent_level (strict : Bool) (s : Line) (lvl : Int) (instr : Bool) : Int :=
  if instr then lvl
  else if s.head? = some '}' then max 0 (lvl - 1)
  else if strict && is_continuation_line s then lvl + 1
  else lvl

/-- The brace-counting loop of `_update_level_after_line`: count `{` and
`}` outside in-line quoted regions, with backslash escapes skipping two
characters. -/
def braceCounts : List Char → Bool → Int × Int
  | [], _ => (0, 0)
  | c :: rest, ils =>
    if c = '\\' then
      match rest with
      | [] => (0, 0)
      | _ :: rest2 => braceCounts rest2 ils
    else
      let ils2 := if c = '"' then !ils else ils
      let p := braceCounts rest ils2
      if ils2 = false ∧ c = '{' then (p.1 + 1, p.2)
      else if ils2 = false ∧ c = '}' then (p.1, p.2 + 1)
      else p

/-- `_update_level_after_line`: the next line's depth from this line's
written level and its net brace count, with the `+1` correction for a
line that starts with `}`. -/
def update_level_after_line (s : Line) (lineLevel : Int) (instr : Bool) : Int :=
  if instr then lineLevel
  else
    let p := braceCounts s false
    let net := p.1 - p.2
    if s.head? = some '}' then lineLevel + net + 1
    else lineLevel + net

/-- Unescaped-quote count of `_update_string_state`. -/
def quoteCount : List Char → Nat
  | [] => 0
  | c :: rest =>
    if c = '\\' then
      match rest with
      | [] => 0
      | _ :: rest2 => quoteCount rest2
    else if c = '"' then quoteCount rest + 1
    else quoteCount rest

/-- `_update_string_state`: toggle the multi-line-string flag once per
unescaped quote. -/
def update_string_state (s : Line) (instr : Bool) : Bool :=
  if quoteCount s % 2 = 1 then !instr else instr

/-- The line loop of `apply_indentation`, threading the current level and
the multi-line-string flag. -/
def applyIndentAux (strict : Bool) : List Line → Int → Bool → List Line
  | [], _, _ => []
  | line :: rest, lvl, instr =>
    let s := pyStrip line
    if s = [] then line :: applyIndentAux strict rest lvl instr
    else if s.head? = some '#' then line :: applyIndentAux strict rest lvl instr
    else
      let lineLevel := calculate_indent_level strict s lvl instr
      (spaces (lineLevel * 2) ++ s)
        :: applyIndentAux strict rest
             (update_level_after_line s lineLevel instr)
             (update_string_state s instr)

/-- `apply_indentation` with `INDENT_SIZE = 2`. -/
def apply_indentation (strict : Bool) (lines : List Line) : List Line :=
  applyIndentAux strict lines 0 false

end IndentationEngine

namespace ListExpansionEngine

/-- Item-separating whitespace of the list tokenizer (`char in ' \t'`). -/
def isWsep (c : Char) : Bool := c = ' ' || c = '\t'

/-- The scanning loop of `_parse_list_items` over the remaining content,
with the current item, the brace depth, the in-string flag and the items
already emitted.  Backslash escapes copy two characters; quotes toggle the
string flag; braces outside strings adjust the depth; whitespace outside
strings at depth zero flushes the current item and is skipped. -/
def parseAux : List Char → List Char → Int → Bool → List (List Char) → List (List Char)
  | [], cur, _, _, acc => if cur = [] then acc else acc ++ [cur]
  | c :: rest, cur, d, s, acc =>
    if c = '\\' ∧ rest ≠ [] then
      parseAux rest.tail (cur ++ [c, rest.headD ' ']) d s acc
    else if c = '"' then parseAux rest (cur ++ [c]) d (!s) acc
    else if s = false ∧ c = '{' then parseAux rest (cur ++ [c]) (d + 1) s acc
    else if s = false ∧ c = '}' then parseAux rest (cur ++ [c]) (d - 1) s acc
    else if s = false ∧ d = 0 ∧ isWsep c then
      parseAux (rest.dropWhile isWsep) [] d s (if cur = [] then acc else acc ++ [cur])
    else parseAux rest (cur ++ [c]) d s acc
termination_by l => l.length
decreasing_by
  · simp [List.length_tail]; omega
  all_goals simp_wf
  · have h : ∀ (l : List Char), (l.dropWhile isWsep).length ≤ l.length := by
      intro l; induction l with
      | nil => simp [List.dropWhile]
      | cons a t ih =>
        by_cases ha : isWsep a
        · simp [List.dropWhile, ha]; omega
        · simp [List.dropWhile, ha]
    have := h rest; omega

/-- `_parse_list_items`. -/
def parse_list_items (content : List Char) : List (List Char) :=
  parseAux content [] 0 false []

/-- First index of `c` in `l` (Python `str.find`, `none` for `-1`). -/
def firstIdxOf (c : Char) (l : List Char) : Option Nat :=
  l.findIdx? (fun x => x = c)

/-- Last index of `c` in `l` (Python `str.rfind`, `none` for `-1`). -/
def lastIdxOf (c : Char) (l : List Char) : Option Nat :=
  match l.reverse.findIdx? (fun x => x = c) with
  | none => none
  | some i => some (l.length - 1 - i)

/-- `_should_expand_list` with `LIST_LENGTH_THRESHOLD = 80`. -/
def should_expand_list (line : Line) : Bool :=
  if line.length < 80 then false
  else
    let s := pyStrip line
    if s.head? = some '#' then false
    else if !(s.contains '{') || !(s.contains '}') then false
    else
      match firstIdxOf '{' s, lastIdxOf '}' s with
      | some oi, some ci =>
        if ci ≤ oi then false
        else
          let content := pyStrip ((s.drop (oi + 1)).take (ci - (oi + 1)))
          if content = [] then false
          else content.contains ' ' || content.contains '\t'
      | _, _ => false

/-- `_expand_list`: split the line around the first `{` and last `}`,
tokenize the content, and emit prefix line, one indented line per item,
and the closing line.  (Only ever invoked on lines accepted by
`_should_expand_list`, which guarantees the braces exist.) -/
def expand_list (line : Line) : List Line :=
  let indent := line.takeWhile isPyWs
  let s := pyStrip line
  match firstIdxOf '{' s, lastIdxOf '}' s with
  | some oi, some ci =>
    let beforePart := s.take (oi + 1)
    let content := pyStrip ((s.drop (oi + 1)).take (ci - (oi + 1)))
    let afterPart := s.drop (ci + 1)
    (indent ++ beforePart)
      :: (parse_list_items content).map (fun it => indent ++ [' ', ' '] ++ it)
      ++ [indent ++ ['}'] ++ afterPart]
  | _, _ => [line]

/-- `expand_long_lists`. -/
def expand_long_lists (lines : List Line) : List Line :=
  (lines.map (fun l => if should_expand_list l then expand_list l else [l])).flatten

end ListExpansionEngine

namespace TCLFormatter

open SyntaxValidator AlignmentEngine IndentationEngine ListExpansionEngine

/-- `_format_lines`: indentation, then optional list expansion, then
alignment or single-space normalization.  `none` models an exception
escaping one of the passes. -/
def format_lines (alignSet expandLists strictIndent : Bool) (lines : List Line) :
    Option (List Line) :=
  if lines = [] then some lines
  else
    let f1 := apply_indentation strictIndent lines
    let f2 := if expandLists then expand_long_lists f1 else f1
    if alignSet then align_set_commands f2
    else some (apply_single_space f2)

/-- Outcome of `format_file` with the file I/O abstracted away:
`invalid` is the early return carrying the validator's diagnostics,
`formatted` the success path, and `crashed` the generic `except Exception`
path taken when a rewrite pass raises (it produces a failure result with
no formatted output and no diagnostics). -/
inductive FormatOutcome where
  | invalid (diags : List SynError)
  | formatted (lines : List Line)
  | crashed
deriving DecidableEq, Repr

/-- The decision core of `format_file`: validate, stop with the
diagnostics when any are found, otherwise run the rewrite passes. -/
def format_file (alignSet expandLists strictIndent : Bool) (lines : List Line) :
    FormatOutcome :=
  let errs := validate lines
  if errs = [] then
    match format_lines alignSet expandLists strictIndent lines with
    | some out => .formatted out
    | none => .crashed
  else .invalid errs

end TCLFormatter

namespace BalancedScan

/-!
An independent counting model of the delimiter discipline, used to state
input-side hypotheses such as "balanced input" (every `{` has a matching
`}` outside quoted regions, every `"` pairs) and "exactly one unclosed
`{`".  It scans a folded line with the same character classification as
the validator but keeps only the list of opener line numbers for the
pending braces, requiring quotes to pair up within each folded line and
every `}` to find a pending `{`.
-/

/-- Scan the characters of one folded line: `rs` is the list of line
numbers of the pending open braces (newest first); the result is `none`
when a `}` arrives with no pending brace. -/
def refChars : List Char → Nat → Bool → List Nat → Option (Bool × List Nat)
  | [], _, instr, rs => some (instr, rs)
  | c :: rest, ln, instr, rs =>
    if c = '\\' then
      match rest with
      | [] => some (instr, rs)
      | _ :: rest2 => refChars rest2 ln instr rs
    else if c = '"' then refChars rest ln (!instr) rs
    else if instr then refChars rest ln instr rs
    else if c = '{' then refChars rest ln instr (ln :: rs)
    else if c = '}' then
      match rs with
      | [] => none
      | _ :: rs2 => refChars rest ln instr rs2
    else refChars rest ln instr rs

/-- Scan one folded line: comment lines change nothing; any other line
must be scanned successfully and leave the quote state closed. -/
def refLine (l : Line) (ln : Nat) (rs : List Nat) : Option (List Nat) :=
  if (pyStrip l).head? = some '#' then some rs
  else
    match refChars l ln false rs with
    | some (false, rs2) => some rs2
    | _ => none

/-- Scan a sequence of folded, numbered lines. -/
def refAll : List (Nat × Line) → List Nat → Option (List Nat)
  | [], rs => some rs
  | (ln, l) :: rest, rs =>
    match refLine l ln rs with
    | none => none
    | some rs2 => refAll rest rs2

/-- Correspondence between the validator's stack and the reference
brace-opener list: every frame is an open brace and the recorded line
numbers agree. -/
def BraceStack (stk : List StackFrame) (rs : List Nat) : Prop :=
  (∀ f ∈ stk, f.char = '{') ∧ stk.map (fun f => f.line_number) = rs

/-- Mid-line invariant: outside a string the stack is exactly the brace
stack; inside a string the frame of the open quote sits on top of it. -/
def Inv (stk : List StackFrame) : Bool → List Nat → Prop
  | false, rs => BraceStack stk rs
  | true, rs => ∃ qf bs, stk = qf :: bs ∧ qf.char = '"' ∧ BraceStack bs rs

end BalancedScan

namespace ContinuationSpec

/-!
Reference folds for the continuation-folding claim, written from the
spec's description over pre-numbered source lines: repeatedly join a line
ending in a backslash (after trimming trailing whitespace) with the next
physical line, dropping the backslash and keeping the first line's
number.
-/

/-- The claim's trigger: after trimming trailing whitespace the line ends
in an *unescaped* backslash (an odd-length run of trailing backslashes). -/
def endsInUnescapedBS (l : Line) : Bool :=
  ((pyRstrip l).reverse.takeWhile (fun c => c = '\\')).length % 2 = 1

/-- Spec fold over numbered lines, joining while the current line's
rstripped text ends in *any* backslash (the behaviour the source
implements). -/
def specFoldAny : Nat → Line → List (Nat × Line) → List (Nat × Line)
  | n, l, [] => [(n, l)]
  | n, l, (m, l2) :: rest =>
    if SyntaxValidator.endsBS (pyRstrip l) then
      specFoldAny n ((pyRstrip l).dropLast ++ l2) rest
    else (n, l) :: specFoldAny m l2 rest

/-- Continuation folding as the amended claim describes it. -/
def spec_fold_continuations : List (Nat × Line) → List (Nat × Line)
  | [] => []
  | (n, l) :: rest => specFoldAny n l rest

/-- Spec fold joining only on an *unescaped* trailing backslash — the
claim's literal wording. -/
def specFoldUnesc : Nat → Line → List (Nat × Line) → List (Nat × Line)
  | n, l, [] => [(n, l)]
  | n, l, (m, l2) :: rest =>
    if endsInUnescapedBS l then
      specFoldUnesc n ((pyRstrip l).dropLast ++ l2) rest
    else (n, l) :: specFoldUnesc m l2 rest

/-- Continuation folding as the claim literally states it. -/
def spec_fold_unescaped : List (Nat × Line) → List (Nat × Line)
  | [] => []
  | (n, l) :: rest => specFoldUnesc n l rest

end ContinuationSpec

namespace ListRoundTrip

open ListExpansionEngine

/-- Rejoin tokenized items with single spaces. -/
def joinSp : List (List Char) → List Char
  | [] => []
  | [l] => l
  | l :: ls => l ++ ' ' :: joinSp ls

/-- `ChunkFrom d s l`: scanning `l` from brace depth `d` and string flag
`s`, the tokenizer consumes every character into the current item — no
separator fires, no backslash is left dangling at the end — and finishes
at depth `0` outside a string.  This is the shape of every non-final item
the tokenizer emits. -/
inductive ChunkFrom : Int → Bool → List Char → Prop
  | nil : ChunkFrom 0 false []
  | esc {d : Int} {s : Bool} {rest : List Char} (c : Char) :
      ChunkFrom d s rest → ChunkFrom d s ('\\' :: c :: rest)
  | quot {d : Int} {s : Bool} {rest : List Char} :
      ChunkFrom d (!s) rest → ChunkFrom d s ('"' :: rest)
  | openB {d : Int} {rest : List Char} :
      ChunkFrom (d + 1) false rest → ChunkFrom d false ('{' :: rest)
  | closeB {d : Int} {rest : List Char} :
      ChunkFrom (d - 1) false rest → ChunkFrom d false ('}' :: rest)
  | other {d : Int} {s : Bool} {rest : List Char} (c : Char) :
      c ≠ '\\' → c ≠ '"' → (s = false → c ≠ '{' ∧ c ≠ '}') →
      ¬(s = false ∧ d = 0 ∧ isWsep c = true) →
      ChunkFrom d s rest → ChunkFrom d s (c :: rest)

/-- `TailFrom d s l`: scanning `l` from `(d, s)` never fires a separator;
the final state is unconstrained and a single trailing backslash is
allowed (it is consumed as an ordinary character at end of content).
This is the shape of the final item the tokenizer emits. -/
inductive TailFrom : Int → Bool → List Char → Prop
  | nil {d : Int} {s : Bool} : TailFrom d s []
  | lastBS {d : Int} {s : Bool} : TailFrom d s ['\\']
  | esc {d : Int} {s : Bool} {rest : List Char} (c : Char) :
      TailFrom d s rest → TailFrom d s ('\\' :: c :: rest)
  | quot {d : Int} {s : Bool} {rest : List Char} :
      TailFrom d (!s) rest → TailFrom d s ('"' :: rest)
  | openB {d : Int} {rest : List Char} :
      TailFrom (d + 1) false rest → TailFrom d false ('{' :: rest)
  | closeB {d : Int} {rest : List Char} :
      TailFrom (d - 1) false rest → TailFrom d false ('}' :: rest)
  | other {d : Int} {s : Bool} {rest : List Char} (c : Char) :
      c ≠ '\\' → c ≠ '"' → (s = false → c ≠ '{' ∧ c ≠ '}') →
      ¬(s = false ∧ d = 0 ∧ isWsep c = true) →
      TailFrom d s rest → TailFrom d s (c :: rest)

/-- Well-formed item lists: every item is non-empty, all but the last are
chunks from the initial state, and the last needs only the weaker tail
shape. -/
inductive Goods : List (List Char) → Prop
  | nil : Goods []
  | single {l : List Char} : l ≠ [] → TailFrom 0 false l → Goods [l]
  | cons {l : List Char} {ls : List (List Char)} :
      l ≠ [] → ChunkFrom 0 false l → ls ≠ [] → Goods ls → Goods (l :: ls)

end ListRoundTrip

/-! Example inputs used by the witnesses and counterexamples. -/

/-- Example 2 of the spec: missing `}`. -/
def exMissingBrace : List Line :=
  ["if \x7b$x > 5\x7d \x7b".toList, "puts \"hi\"".toList]

/-- A balanced input. -/
def exBalanced : List Line :=
  ["if \x7b$x > 5\x7d \x7b".toList, "puts \"hi\"".toList, "\x7d".toList]

/-- Example 1 of the spec, and its expected indentation. -/
def exIndent : List Line :=
  ["if \x7b$x > 5\x7d \x7b".toList, "puts \"hi\"".toList, "\x7d".toList]

/-- A set block whose second line has no value token. -/
def exSetNoValue : List Line := ["set x".toList, "set y 1".toList]

/-- A set block whose last line has no value token. -/
def exSetNoValue2 : List Line := ["set a 1".toList, "set x".toList]

/-- Two physical lines, the first ending in an escaped backslash. -/
def exEscapedBS : List Line := ["a\\\\".toList, "c".toList]

/-! ## Theorems -/

/-- **C1** — The orchestrator stops with exactly the validator's
diagnostics and runs no rewrite pass when the diagnostic list is
non-empty; but the second half of the claim fails: on the valid input
`["set x", "set y 1"]` with alignment enabled the validator returns no
diagnostics, yet no formatted output is produced — the alignment pass
raises `IndexError` (modelled by `none`), caught by `format_file`'s
generic handler as a failure with neither output nor diagnostics. -/
theorem format_file_crash_on_valid_input :
    SyntaxValidator.validate exSetNoValue = [] ∧
    TCLFormatter.format_file true false false exSetNoValue
      = TCLFormatter.FormatOutcome.crashed := by
  exact ⟨rfl, rfl⟩

/-- **C2** — A value-less assignment line (`set x`) is *not* excluded
from alignment block formation: `_is_set_command` accepts it, it lands in
the block `[0, 1]`, and `align_set_commands` then raises `IndexError`
(modelled by `none`) instead of leaving the line unmodified.  Only
`apply_single_space` leaves it unmodified as claimed. -/
theorem set_without_value_block_and_crash :
    AlignmentEngine.is_set_command (pyStrip "set x".toList) = true ∧
    AlignmentEngine.find_set_blocks exSetNoValue = [[0, 1]] ∧
    AlignmentEngine.align_set_commands exSetNoValue = none ∧
    AlignmentEngine.apply_single_space ["set x".toList] = ["set x".toList] := by
  exact ⟨rfl, rfl, rfl, rfl⟩

/-- **C3** — `align_set_commands` does not return normally on every
input: on `["set a 1", "set x"]` the block `[0, 1]` parses to a single
command, `aligned_block` has length 1, and the write-back loop raises
`IndexError` (modelled by `none`). -/
theorem align_set_commands_index_error :
    AlignmentEngine.align_set_commands exSetNoValue2 = none := by
  exact rfl

/-- **C4** — When the closing delimiter's kind does not match the frame
on top of the stack, `_pop` returns exactly one diagnostic, reported at
the closer's line with the closer's kind, and the returned stack equals
the stack before the pop (the wrongly popped frame is restored). -/
theorem pop_mismatch_restores_stack :
    ∀ (c : Char) (ln pos : Nat) (f : StackFrame) (rest : List StackFrame),
      (c = '}' ∧ f.char ≠ '{') ∨ (c = '"' ∧ f.char ≠ '"') →
      ∃ e : SynError,
        SyntaxValidator.pop c ln pos (f :: rest) = (some e, f :: rest) ∧
        e.line_number = ln ∧
        e.error_type = (if c = '}' then "brace" else "quote") := by
  intro c ln pos f rest h
  rcases h with ⟨hc, hf⟩ | ⟨hc, hf⟩ <;> subst hc
  · refine ⟨⟨ln, "Unexpected closing brace, expected closing quote from line "
        ++ toString f.line_number, "brace"⟩, ?_, rfl, by simp⟩
    simp [SyntaxValidator.pop, hf]
  · refine ⟨⟨ln, "Unexpected closing quote, expected closing brace from line "
        ++ toString f.line_number, "quote"⟩, ?_, rfl, by simp⟩
    simp [SyntaxValidator.pop, hf]

/-- Witness for C4: a `}` arriving while an open quote is on top. -/
theorem pop_mismatch_restores_stack_witness :
    ∃ e : SynError,
      SyntaxValidator.pop '}' 2 0 [⟨'"', 1, 4⟩] = (some e, [⟨'"', 1, 4⟩]) ∧
      e.line_number = 2 ∧
      e.error_type = (if '}' = '}' then "brace" else "quote") :=
  pop_mismatch_restores_stack '}' 2 0 ⟨'"', 1, 4⟩ [] (Or.inl ⟨rfl, by decide⟩)

/-- **C9** — A closing line dedents before it is written: outside a
carried multi-line string, a non-blank non-comment line whose stripped
text starts with `}` is written at level `max 0 (depth - 1)`; and the
spec's Example 1 indents as stated. -/
theorem closing_brace_dedent_rule :
    (IndentationEngine.apply_indentation false exIndent
      = ["if \x7b$x > 5\x7d \x7b".toList, "  puts \"hi\"".toList, "\x7d".toList]) ∧
    ∀ (strict : Bool) (line : Line) (rest : List Line) (lvl : Int),
      pyStrip line ≠ [] → (pyStrip line).head? ≠ some '#' →
      (pyStrip line).head? = some '}' →
      ∃ lvl2 instr2,
        IndentationEngine.applyIndentAux strict (line :: rest) lvl false
          = (IndentationEngine.spaces (max 0 (lvl - 1) * 2) ++ pyStrip line)
            :: IndentationEngine.applyIndentAux strict rest lvl2 instr2 := by
  constructor
  · rfl
  · intro strict line rest lvl h1 h2 h3
    have hcalc : IndentationEngine.calculate_indent_level strict (pyStrip line) lvl false
        = max 0 (lvl - 1) := by
      simp [IndentationEngine.calculate_indent_level, h3]
    refine ⟨IndentationEngine.update_level_after_line (pyStrip line) (max 0 (lvl - 1)) false,
      IndentationEngine.update_string_state (pyStrip line) false, ?_⟩
    simp only [IndentationEngine.applyIndentAux, if_neg h1, if_neg h2, hcalc]

/-- Witness for C9: the rule applied to the line `}` at depth 1. -/
theorem closing_brace_dedent_rule_witness :
    ∃ lvl2 instr2,
      IndentationEngine.applyIndentAux false ["\x7d".toList] 1 false
        = (IndentationEngine.spaces (max 0 (1 - 1) * 2) ++ pyStrip "\x7d".toList)
          :: IndentationEngine.applyIndentAux false [] lvl2 instr2 :=
  closing_brace_dedent_rule.2 false "\x7d".toList [] 1 (by decide) (by decide) (by decide)

/-- The line loop of `apply_indentation` preserves line count and rewrites
each non-blank non-comment line as computed indent plus fully stripped
text, leaving blank and comment lines untouched. -/
theorem applyIndentAux_shape :
    ∀ (strict : Bool) (lines : List Line) (lvl : Int) (instr : Bool),
      (IndentationEngine.applyIndentAux strict lines lvl instr).length = lines.length ∧
      ∀ i, i < lines.length →
        ((pyStrip (lines.getD i []) = [] ∨ (pyStrip (lines.getD i [])).head? = some '#') →
          (IndentationEngine.applyIndentAux strict lines lvl instr).getD i []
            = lines.getD i []) ∧
        (pyStrip (lines.getD i []) ≠ [] → (pyStrip (lines.getD i [])).head? ≠ some '#' →
          ∃ k : Int,
            (IndentationEngine.applyIndentAux strict lines lvl instr).getD i []
              = IndentationEngine.spaces (k * 2) ++ pyStrip (lines.getD i [])) := by
  intro strict lines
  induction lines with
  | nil => intro lvl instr; exact ⟨rfl, fun i hi => absurd hi (by simp)⟩
  | cons l rest ih =>
    intro lvl instr
    by_cases hb : pyStrip l = []
    · rw [show IndentationEngine.applyIndentAux strict (l :: rest) lvl instr
          = l :: IndentationEngine.applyIndentAux strict rest lvl instr by
        simp [IndentationEngine.applyIndentAux, hb]]
      refine ⟨by simp [(ih lvl instr).1], ?_⟩
      intro i hi
      match i with
      | 0 => exact ⟨fun _ => by simp, fun h _ => absurd hb h⟩
      | i + 1 =>
        have := (ih lvl instr).2 i (by simpa using hi)
        simpa using this
    · by_cases hc : (pyStrip l).head? = some '#'
      · rw [show IndentationEngine.applyIndentAux strict (l :: rest) lvl instr
            = l :: IndentationEngine.applyIndentAux strict rest lvl instr by
          simp [IndentationEngine.applyIndentAux, hb, hc]]
        refine ⟨by simp [(ih lvl instr).1], ?_⟩
        intro i hi
        match i with
        | 0 => exact ⟨fun _ => by simp, fun _ h => absurd hc h⟩
        | i + 1 =>
          have := (ih lvl instr).2 i (by simpa using hi)
          simpa using this
      · set lineLevel := IndentationEngine.calculate_indent_level strict (pyStrip l) lvl instr
          with hL
        set lvl2 := IndentationEngine.update_level_after_line (pyStrip l) lineLevel instr
          with hl2
        set instr2 := IndentationEngine.update_string_state (pyStrip l) instr with hi2
        rw [show IndentationEngine.applyIndentAux strict (l :: rest) lvl instr
            = (IndentationEngine.spaces (lineLevel * 2) ++ pyStrip l)
              :: IndentationEngine.applyIndentAux strict rest lvl2 instr2 by
          simp [IndentationEngine.applyIndentAux, hb, hc, hL, hl2, hi2]]
        refine ⟨by simp [(ih lvl2 instr2).1], ?_⟩
        intro i hi
        match i with
        | 0 =>
          refine ⟨fun h => ?_, fun _ _ => ⟨lineLevel, by simp⟩⟩
          rcases h with h | h
          · exact absurd h (by simpa using hb)
          · exact absurd h (by simpa using hc)
        | i + 1 =>
          have := (ih lvl2 instr2).2 i (by simpa using hi)
          simpa using this

/-- **C10** — `apply_indentation` outputs, for every non-blank non-comment
line, exactly the computed indent (`level × 2` spaces) followed by the
line's fully stripped text (leading *and* trailing whitespace removed),
and returns blank and comment lines verbatim, preserving line count. -/
theorem apply_indentation_output_shape (strict : Bool) (lines : List Line) :
    (IndentationEngine.apply_indentation strict lines).length = lines.length ∧
    ∀ i, i < lines.length →
      ((pyStrip (lines.getD i []) = [] ∨ (pyStrip (lines.getD i [])).head? = some '#') →
        (IndentationEngine.apply_indentation strict lines).getD i [] = lines.getD i []) ∧
      (pyStrip (lines.getD i []) ≠ [] → (pyStrip (lines.getD i [])).head? ≠ some '#' →
        ∃ k : Int,
          (IndentationEngine.apply_indentation strict lines).getD i []
            = IndentationEngine.spaces (k * 2) ++ pyStrip (lines.getD i [])) :=
  applyIndentAux_shape strict lines 0 false

/-- Witness for C10: a line with leading and trailing whitespace, a blank
line and a comment line. -/
theorem apply_indentation_output_shape_witness :
    (0 : Nat) < ([ "   puts hi  ".toList, "".toList, "# c".toList ] : List Line).length ∧
    ∃ k : Int,
      (IndentationEngine.apply_indentation false
          ["   puts hi  ".toList, "".toList, "# c".toList]).getD 0 []
        = IndentationEngine.spaces (k * 2)
            ++ pyStrip ((["   puts hi  ".toList, "".toList, "# c".toList] : List Line).getD 0 []) :=
  ⟨by decide,
    ((apply_indentation_output_shape false
        ["   puts hi  ".toList, "".toList, "# c".toList]).2 0 (by decide)).2
      (by decide) (by decide)⟩

/-- Counterexample to C7 as stated: the physical line `a\\` ends in an
*escaped* backslash after trimming, so by the claim it must not be joined
with the next line; the source joins it anyway, folding the two physical
lines into the single line `a\c`. -/
theorem continuation_escaped_backslash_joined :
    ContinuationSpec.endsInUnescapedBS "a\\\\".toList = false ∧
    SyntaxValidator.handle_line_continuations exEscapedBS = [(1, "a\\c".toList)] ∧
    ContinuationSpec.spec_fold_unescaped (numberFrom 1 exEscapedBS)
      = [(1, "a\\\\".toList), (2, "c".toList)] := by
  exact ⟨rfl, rfl, rfl⟩

/-- The continuation loop agrees with the spec fold over pre-numbered
lines. -/
theorem handleContAux_eq_specFoldAny :
    ∀ (rest : List Line) (l : Line) (num next : Nat),
      SyntaxValidator.handleContAux l num next rest
        = ContinuationSpec.specFoldAny num l (numberFrom next rest) := by
  intro rest
  induction rest with
  | nil => intro l num next; rfl
  | cons l2 rest2 ih =>
    intro l num next
    by_cases h : SyntaxValidator.endsBS (pyRstrip l)
    · simp only [SyntaxValidator.handleContAux, ContinuationSpec.specFoldAny,
        numberFrom, if_pos h]
      exact ih _ num (next + 1)
    · simp only [SyntaxValidator.handleContAux, ContinuationSpec.specFoldAny,
        numberFrom, if_neg h]
      exact congrArg _ (ih l2 next (next + 1))

/-- **C7 (amended)** — During continuation folding a physical line is
joined with the next one if and only if, after trimming trailing
whitespace, it ends in a backslash — escaped or not (the source tests
`rstrip().endswith(backslash)` without counting preceding backslashes);
the backslash is dropped, the next physical line appended, repeating
across consecutive continuations, and the folded line carries the first
physical line's 1-based number: `_handle_line_continuations` equals the
spec fold with that trigger over the 1-based-numbered physical lines. -/
theorem handle_line_continuations_follows_spec_fold (lines : List Line) :
    SyntaxValidator.handle_line_continuations lines
      = ContinuationSpec.spec_fold_continuations (numberFrom 1 lines) := by
  match lines with
  | [] => rfl
  | l :: rest =>
    simp only [SyntaxValidator.handle_line_continuations, numberFrom,
      ContinuationSpec.spec_fold_continuations]
    exact handleContAux_eq_specFoldAny rest l 1 2

/-- Character-level simulation: whenever the reference scan of a line
suffix succeeds, the validator's scan of the same suffix emits no
diagnostic and its stack stays in correspondence with the reference
opener list. -/
theorem sim_chars_aux :
    ∀ (n : Nat) (chars : List Char), chars.length ≤ n →
      ∀ (ln pos : Nat) (instr : Bool) (stk : List StackFrame) (errs : List SynError)
        (rs : List Nat) (res : Bool × List Nat),
        BalancedScan.Inv stk instr rs →
        BalancedScan.refChars chars ln instr rs = some res →
        ∃ stk2,
          SyntaxValidator.procChars chars ln pos instr ⟨stk, errs⟩ = ⟨stk2, errs⟩ ∧
          BalancedScan.Inv stk2 res.1 res.2 := by
  intro n
  induction n with
  | zero =>
    intro chars hlen ln pos instr stk errs rs res hinv href
    have hnil : chars = [] := List.length_eq_zero.mp (Nat.le_zero.mp hlen)
    subst hnil
    simp only [BalancedScan.refChars, Option.some.injEq] at href
    subst href
    exact ⟨stk, rfl, hinv⟩
  | succ n ih =>
    intro chars hlen ln pos instr stk errs rs res hinv href
    match chars with
    | [] =>
      simp only [BalancedScan.refChars, Option.some.injEq] at href
      subst href
      exact ⟨stk, rfl, hinv⟩
    | c :: rest =>
      rw [BalancedScan.refChars.eq_def] at href
      by_cases hbs : c = '\\'
      · subst hbs
        match rest with
        | [] =>
          simp at href
          subst href
          refine ⟨stk, ?_, hinv⟩
          rw [SyntaxValidator.procChars.eq_def]
          simp
        | c2 :: rest2 =>
          simp at href
          have hlen2 : rest2.length ≤ n := by
            simp only [List.length_cons] at hlen; omega
          obtain ⟨stk2, hrun, hinv2⟩ :=
            ih rest2 hlen2 ln (pos + 2) instr stk errs rs res hinv href
          refine ⟨stk2, ?_, hinv2⟩
          rw [show SyntaxValidator.procChars ('\\' :: c2 :: rest2) ln pos instr ⟨stk, errs⟩
              = SyntaxValidator.procChars rest2 ln (pos + 2) instr ⟨stk, errs⟩ by
            rw [SyntaxValidator.procChars.eq_def]; simp]
          exact hrun
      · have hlen2 : rest.length ≤ n := by
          simp only [List.length_cons] at hlen; omega
        by_cases hq : c = '"'
        · subst hq
          cases instr with
          | true =>
            obtain ⟨qf, bs, hstk, hqf, hbsk⟩ := hinv
            subst hstk
            simp at href
            obtain ⟨stk2, hrun, hinv2⟩ :=
              ih rest hlen2 ln (pos + 1) false bs errs rs res hbsk href
            refine ⟨stk2, ?_, hinv2⟩
            have hpop : SyntaxValidator.pop '"' ln pos (qf :: bs) = (none, bs) := by
              simp [SyntaxValidator.pop, hqf]
            rw [show SyntaxValidator.procChars ('"' :: rest) ln pos true ⟨qf :: bs, errs⟩
                = SyntaxValidator.procChars rest ln (pos + 1) false ⟨bs, errs⟩ by
              rw [SyntaxValidator.procChars.eq_def]; simp [hpop]]
            exact hrun
          | false =>
            simp at href
            obtain ⟨stk2, hrun, hinv2⟩ :=
              ih rest hlen2 ln (pos + 1) true (⟨'"', ln, pos⟩ :: stk) errs rs res
                ⟨⟨'"', ln, pos⟩, stk, rfl, rfl, hinv⟩ href
            refine ⟨stk2, ?_, hinv2⟩
            rw [show SyntaxValidator.procChars ('"' :: rest) ln pos false ⟨stk, errs⟩
                = SyntaxValidator.procChars rest ln (pos + 1) true
                    ⟨⟨'"', ln, pos⟩ :: stk, errs⟩ by
              rw [SyntaxValidator.procChars.eq_def]
              simp [SyntaxValidator.push]]
            exact hrun
        · cases instr with
          | true =>
            simp [hbs, hq] at href
            obtain ⟨stk2, hrun, hinv2⟩ :=
              ih rest hlen2 ln (pos + 1) true stk errs rs res hinv href
            refine ⟨stk2, ?_, hinv2⟩
            rw [show SyntaxValidator.procChars (c :: rest) ln pos true ⟨stk, errs⟩
                = SyntaxValidator.procChars rest ln (pos + 1) true ⟨stk, errs⟩ by
              rw [SyntaxValidator.procChars.eq_def]; simp [hbs, hq]]
            exact hrun
          | false =>
            by_cases hob : c = '{'
            · subst hob
              simp at href
              have hinvP : BalancedScan.Inv (⟨'{', ln, pos⟩ :: stk) false (ln :: rs) := by
                refine ⟨?_, ?_⟩
                · intro f hf
                  rcases List.mem_cons.mp hf with hf2 | hf2
                  · rw [hf2]
                  · exact hinv.1 f hf2
                · simp [hinv.2]
              obtain ⟨stk2, hrun, hinv2⟩ :=
                ih rest hlen2 ln (pos + 1) false (⟨'{', ln, pos⟩ :: stk) errs (ln :: rs) res
                  hinvP href
              refine ⟨stk2, ?_, hinv2⟩
              rw [show SyntaxValidator.procChars ('{' :: rest) ln pos false ⟨stk, errs⟩
                  = SyntaxValidator.procChars rest ln (pos + 1) false
                      ⟨⟨'{', ln, pos⟩ :: stk, errs⟩ by
                rw [SyntaxValidator.procChars.eq_def]
                simp [SyntaxValidator.push]]
              exact hrun
            · by_cases hcb : c = '}'
              · subst hcb
                simp at href
                rcases rs with _ | ⟨m, rs2⟩
                · simp at href
                · simp at href
                  obtain ⟨hall, hmap⟩ := hinv
                  rcases stk with _ | ⟨f, bs⟩
                  · simp at hmap
                  · simp only [List.map_cons, List.cons.injEq] at hmap
                    have hfchar : f.char = '{' := hall f (by simp)
                    obtain ⟨stk2, hrun, hinv2⟩ :=
                      ih rest hlen2 ln (pos + 1) false bs errs rs2 res
                        ⟨fun g hg => hall g (by simp [hg]), hmap.2⟩ href
                    refine ⟨stk2, ?_, hinv2⟩
                    have hpop : SyntaxValidator.pop '}' ln pos (f :: bs) = (none, bs) := by
                      simp [SyntaxValidator.pop, hfchar]
                    rw [show SyntaxValidator.procChars ('}' :: rest) ln pos false
                          ⟨f :: bs, errs⟩
                        = SyntaxValidator.procChars rest ln (pos + 1) false ⟨bs, errs⟩ by
                      rw [SyntaxValidator.procChars.eq_def]; simp [hpop]]
                    exact hrun
              · simp [hbs, hq, hob, hcb] at href
                obtain ⟨stk2, hrun, hinv2⟩ :=
                  ih rest hlen2 ln (pos + 1) false stk errs rs res hinv href
                refine ⟨stk2, ?_, hinv2⟩
                rw [show SyntaxValidator.procChars (c :: rest) ln pos false ⟨stk, errs⟩
                    = SyntaxValidator.procChars rest ln (pos + 1) false ⟨stk, errs⟩ by
                  rw [SyntaxValidator.procChars.eq_def]; simp [hbs, hq, hob, hcb]]
                exact hrun

/-- Line-level simulation: a successful reference scan of one folded line
leaves the validator's diagnostics unchanged and the stacks in
correspondence. -/
theorem sim_line :
    ∀ (l : Line) (ln : Nat) (stk : List StackFrame) (errs : List SynError)
      (rs rs2 : List Nat),
      BalancedScan.BraceStack stk rs →
      BalancedScan.refLine l ln rs = some rs2 →
      ∃ stk2,
        SyntaxValidator.process_line l ln ⟨stk, errs⟩ = ⟨stk2, errs⟩ ∧
        BalancedScan.BraceStack stk2 rs2 := by
  intro l ln stk errs rs rs2 hinv href
  unfold BalancedScan.refLine at href
  by_cases hc : (pyStrip l).head? = some '#'
  · rw [if_pos hc] at href
    injection href with h
    subst h
    exact ⟨stk, by simp [SyntaxValidator.process_line, hc], hinv⟩
  · rw [if_neg hc] at href
    rcases h : BalancedScan.refChars l ln false rs with _ | ⟨b, rs3⟩
    · rw [h] at href; simp at href
    · rw [h] at href
      cases b with
      | true => simp at href
      | false =>
        simp at href
        subst href
        obtain ⟨stk2, hrun, hinv2⟩ :=
          sim_chars_aux l.length l le_rfl ln 0 false stk errs rs (false, rs3) hinv h
        refine ⟨stk2, ?_, hinv2⟩
        simpa [SyntaxValidator.process_line, hc] using hrun

/-- File-level simulation over the folded, numbered lines. -/
theorem sim_all :
    ∀ (pls : List (Nat × Line)) (stk : List StackFrame) (errs : List SynError)
      (rs rs2 : List Nat),
      BalancedScan.BraceStack stk rs →
      BalancedScan.refAll pls rs = some rs2 →
      ∃ stk2,
        SyntaxValidator.run_lines pls ⟨stk, errs⟩ = ⟨stk2, errs⟩ ∧
        BalancedScan.BraceStack stk2 rs2 := by
  intro pls
  induction pls with
  | nil =>
    intro stk errs rs rs2 hinv href
    simp only [BalancedScan.refAll, Option.some.injEq] at href
    subst href
    exact ⟨stk, rfl, hinv⟩
  | cons p rest ih =>
    intro stk errs rs rs2 hinv href
    obtain ⟨ln, l⟩ := p
    simp only [BalancedScan.refAll] at href
    rcases h : BalancedScan.refLine l ln rs with _ | rs3
    · rw [h] at href; simp at href
    · rw [h] at href
      simp only at href
      obtain ⟨stkm, hrunl, hinvm⟩ := sim_line l ln stk errs rs rs3 hinv h
      obtain ⟨stk2, hrun, hinv2⟩ := ih stkm errs rs3 rs2 hinvm href
      refine ⟨stk2, ?_, hinv2⟩
      simp only [SyntaxValidator.run_lines, hrunl]
      exact hrun

/-- **C6** — For every balanced input (in the sense of the reference
scan `refAll`: every `{` finds its `}` outside quoted regions and every
`"` pairs, leaving no pending opener) `validate` returns the empty
diagnostic list. -/
theorem validate_balanced_empty :
    ∀ lines : List Line,
      BalancedScan.refAll (SyntaxValidator.handle_line_continuations lines) [] = some [] →
      SyntaxValidator.validate lines = [] := by
  intro lines h
  obtain ⟨stk2, hrun, hbs⟩ :=
    sim_all (SyntaxValidator.handle_line_continuations lines) [] [] [] []
      ⟨by simp, by simp⟩ h
  have hnil : stk2 = [] := by
    have := hbs.2
    simpa using this
  subst hnil
  simp only [SyntaxValidator.validate, hrun]
  simp [SyntaxValidator.check_remaining_stack]

/-- Witness for C6: the balanced example validates cleanly. -/
theorem validate_balanced_empty_witness :
    BalancedScan.refAll (SyntaxValidator.handle_line_continuations exBalanced) [] = some []
      ∧ SyntaxValidator.validate exBalanced = [] :=
  ⟨rfl, validate_balanced_empty exBalanced rfl⟩

/-- **C5** — For every input whose reference scan succeeds leaving exactly
one pending `{` opened at (folded) line `n` — exactly one unclosed brace
and no other defect — `validate` returns exactly one diagnostic: an
unmatched-brace error at line `n`. -/
theorem validate_single_unclosed_brace :
    ∀ (lines : List Line) (n : Nat),
      BalancedScan.refAll (SyntaxValidator.handle_line_continuations lines) [] = some [n] →
      SyntaxValidator.validate lines = [⟨n, "Unmatched opening brace", "brace"⟩] := by
  intro lines n h
  obtain ⟨stk2, hrun, hall, hmap⟩ :=
    sim_all (SyntaxValidator.handle_line_continuations lines) [] [] [] [n]
      ⟨by simp, by simp⟩ h
  rcases stk2 with _ | ⟨f, bs⟩
  · simp at hmap
  · simp only [List.map_cons, List.cons.injEq] at hmap
    have hbs : bs = [] := by simpa using hmap.2
    subst hbs
    have hfchar : f.char = '{' := hall f (by simp)
    simp only [SyntaxValidator.validate, hrun]
    simp [SyntaxValidator.check_remaining_stack, SyntaxValidator.frameError,
      hfchar, hmap.1]

/-- Witness for C5: the spec's Example 2 yields exactly the unmatched
brace diagnostic at line 1. -/
theorem validate_single_unclosed_brace_witness :
    BalancedScan.refAll (SyntaxValidator.handle_line_continuations exMissingBrace) []
        = some [1]
      ∧ SyntaxValidator.validate exMissingBrace
        = [⟨1, "Unmatched opening brace", "brace"⟩] :=
  ⟨rfl, validate_single_unclosed_brace exMissingBrace 1 rfl⟩

namespace ListRoundTrip

open ListExpansionEngine

/-- Tokenizer step: empty content flushes the pending item. -/
theorem parseAux_nil (cur : List Char) (d : Int) (s : Bool) (acc : List (List Char)) :
    parseAux [] cur d s acc = if cur = [] then acc else acc ++ [cur] := by
  simp [parseAux]

/-- Tokenizer step: a backslash escape copies two characters. -/
theorem parseAux_esc (c2 : Char) (rest cur : List Char) (d : Int) (s : Bool)
    (acc : List (List Char)) :
    parseAux ('\\' :: c2 :: rest) cur d s acc = parseAux rest (cur ++ ['\\', c2]) d s acc := by
  simp [parseAux]

/-- Tokenizer step: a quote is copied and toggles the string flag. -/
theorem parseAux_quote (rest cur : List Char) (d : Int) (s : Bool) (acc : List (List Char)) :
    parseAux ('"' :: rest) cur d s acc = parseAux rest (cur ++ ['"']) d (!s) acc := by
  simp [parseAux]

/-- Tokenizer step: `{` outside a string is copied and deepens. -/
theorem parseAux_open (rest cur : List Char) (d : Int) (acc : List (List Char)) :
    parseAux ('{' :: rest) cur d false acc = parseAux rest (cur ++ ['{']) (d + 1) false acc := by
  simp [parseAux]

/-- Tokenizer step: `}` outside a string is copied and shallows. -/
theorem parseAux_close (rest cur : List Char) (d : Int) (acc : List (List Char)) :
    parseAux ('}' :: rest) cur d false acc = parseAux rest (cur ++ ['}']) (d - 1) false acc := by
  simp [parseAux]

/-- Tokenizer step: separator whitespace at depth zero outside a string
flushes the pending item and skips the whitespace run. -/
theorem parseAux_sep (c : Char) (rest cur : List Char) (acc : List (List Char))
    (hc : isWsep c = true) :
    parseAux (c :: rest) cur 0 false acc
      = parseAux (rest.dropWhile isWsep) [] 0 false
          (if cur = [] then acc else acc ++ [cur]) := by
  have : c = ' ' ∨ c = '\t' := by simpa [isWsep] using hc
  rcases this with rfl | rfl <;> simp [parseAux, isWsep]

/-- Tokenizer step: an ordinary character outside a string is copied. -/
theorem parseAux_other (c : Char) (rest cur : List Char) (d : Int) (acc : List (List Char))
    (h1 : c ≠ '\\' ∨ rest = []) (h2 : c ≠ '"') (h3 : c ≠ '{') (h4 : c ≠ '}')
    (h5 : ¬(d = 0 ∧ isWsep c = true)) :
    parseAux (c :: rest) cur d false acc = parseAux rest (cur ++ [c]) d false acc := by
  rw [parseAux]
  rw [if_neg (by rintro ⟨rfl, hr⟩; exact h1.elim (fun h => h rfl) hr)]
  rw [if_neg h2, if_neg (by rintro ⟨-, hc⟩; exact h3 hc),
    if_neg (by rintro ⟨-, hc⟩; exact h4 hc),
    if_neg (by rintro ⟨-, hd, hw⟩; exact h5 ⟨hd, hw⟩)]

/-- Tokenizer step: any character other than a quote or an escape pair is
copied verbatim while inside a string. -/
theorem parseAux_instr (c : Char) (rest cur : List Char) (d : Int) (acc : List (List Char))
    (h1 : c ≠ '\\' ∨ rest = []) (h2 : c ≠ '"') :
    parseAux (c :: rest) cur d true acc = parseAux rest (cur ++ [c]) d true acc := by
  rw [parseAux]
  rw [if_neg (by rintro ⟨rfl, hr⟩; exact h1.elim (fun h => h rfl) hr)]
  rw [if_neg h2]
  simp

/-- Dropping separator whitespace never lengthens a list. -/
theorem dropWhile_wsep_length_le : ∀ (l : List Char), (l.dropWhile isWsep).length ≤ l.length := by
  intro l
  induction l with
  | nil => simp
  | cons a t iht =>
    by_cases ha : isWsep a
    · simp only [List.dropWhile_cons, ha]
      simp only [if_true, List.length_cons]
      omega
    · simp [List.dropWhile_cons, ha]

/-- The accumulator of the tokenizer loop is only appended to. -/
theorem parseAux_acc :
    ∀ (n : Nat) (content : List Char), content.length ≤ n →
      ∀ (cur : List Char) (d : Int) (s : Bool) (acc : List (List Char)),
        parseAux content cur d s acc = acc ++ parseAux content cur d s [] := by
  intro n
  induction n with
  | zero =>
    intro content hlen cur d s acc
    have hnil : content = [] := List.length_eq_zero.mp (Nat.le_zero.mp hlen)
    subst hnil
    by_cases hcur : cur = [] <;> simp [parseAux_nil, hcur]
  | succ n ih =>
    intro content hlen cur d s acc
    match content with
    | [] => by_cases hcur : cur = [] <;> simp [parseAux_nil, hcur]
    | c :: rest =>
      have hlenr : rest.length ≤ n := by
        simp only [List.length_cons] at hlen; omega
      have hlend : (rest.dropWhile isWsep).length ≤ n := by
        have := dropWhile_wsep_length_le rest
        omega
      rw [parseAux, parseAux]
      split_ifs with hA hB hC hD hE hcur
      · obtain ⟨-, hr⟩ := hA
        match rest, hr, hlenr with
        | c2 :: rest2, _, hlenr =>
          have hlen2 : rest2.length ≤ n := by
            simp only [List.length_cons] at hlenr; omega
          simpa using ih rest2 (by omega) _ d s acc
      · exact ih rest hlenr _ d (!s) acc
      · exact ih rest hlenr _ (d + 1) s acc
      · exact ih rest hlenr _ (d - 1) s acc
      · exact ih _ hlend [] d s acc
      · rw [ih _ hlend [] d s (acc ++ [cur]), ih _ hlend [] d s ([] ++ [cur])]
        simp
      · exact ih rest hlenr _ d s acc

end ListRoundTrip

namespace ListRoundTrip

open ListExpansionEngine

/-- Every chunk is in particular a valid tail. -/
theorem chunk_to_tail : ∀ {d : Int} {s : Bool} {l : List Char},
    ChunkFrom d s l → TailFrom d s l := by
  intro d s l h
  induction h with
  | nil => exact TailFrom.nil
  | esc c _ ih => exact TailFrom.esc c ih
  | quot _ ih => exact TailFrom.quot ih
  | openB _ ih => exact TailFrom.openB ih
  | closeB _ ih => exact TailFrom.closeB ih
  | other c h1 h2 h3 h4 _ ih => exact TailFrom.other c h1 h2 h3 h4 ih

/-- The first character of a chunk from the initial state is never
separator whitespace. -/
theorem chunkFrom_head_not_wsep {l : List Char} (h : ChunkFrom 0 false l) :
    ∀ c, l.head? = some c → isWsep c = false := by
  cases h with
  | nil => intro c hc; simp at hc
  | esc c2 _ =>
    intro c hc; simp only [List.head?_cons, Option.some.injEq] at hc; subst hc; rfl
  | quot _ =>
    intro c hc; simp only [List.head?_cons, Option.some.injEq] at hc; subst hc; rfl
  | openB _ =>
    intro c hc; simp only [List.head?_cons, Option.some.injEq] at hc; subst hc; rfl
  | closeB _ =>
    intro c hc; simp only [List.head?_cons, Option.some.injEq] at hc; subst hc; rfl
  | other c2 h1 h2 h3 h4 _ =>
    intro c hc
    simp only [List.head?_cons, Option.some.injEq] at hc
    cases hc
    cases hw : isWsep c2
    · rfl
    · exact absurd ⟨rfl, rfl, hw⟩ h4

/-- The first character of a tail from the initial state is never
separator whitespace. -/
theorem tailFrom_head_not_wsep {l : List Char} (h : TailFrom 0 false l) :
    ∀ c, l.head? = some c → isWsep c = false := by
  cases h with
  | nil => intro c hc; simp at hc
  | lastBS =>
    intro c hc; simp only [List.head?_cons, Option.some.injEq] at hc; subst hc; rfl
  | esc c2 _ =>
    intro c hc; simp only [List.head?_cons, Option.some.injEq] at hc; subst hc; rfl
  | quot _ =>
    intro c hc; simp only [List.head?_cons, Option.some.injEq] at hc; subst hc; rfl
  | openB _ =>
    intro c hc; simp only [List.head?_cons, Option.some.injEq] at hc; subst hc; rfl
  | closeB _ =>
    intro c hc; simp only [List.head?_cons, Option.some.injEq] at hc; subst hc; rfl
  | other c2 h1 h2 h3 h4 _ =>
    intro c hc
    simp only [List.head?_cons, Option.some.injEq] at hc
    cases hc
    cases hw : isWsep c2
    · rfl
    · exact absurd ⟨rfl, rfl, hw⟩ h4

/-- A list of non-empty chunks is a well-formed item list. -/
theorem goods_of_chunks :
    ∀ (ls : List (List Char)), (∀ x ∈ ls, x ≠ [] ∧ ChunkFrom 0 false x) → Goods ls
  | [], _ => Goods.nil
  | [x], h => Goods.single (h x (by simp)).1 (chunk_to_tail (h x (by simp)).2)
  | x :: y :: ls, h =>
    Goods.cons (h x (by simp)).1 (h x (by simp)).2 (by simp)
      (goods_of_chunks (y :: ls) (fun z hz => h z (List.mem_cons_of_mem x hz)))

/-- Appending a tail item to a list of chunks gives a well-formed item
list. -/
theorem goods_snoc :
    ∀ (ls : List (List Char)) (t : List Char),
      (∀ x ∈ ls, x ≠ [] ∧ ChunkFrom 0 false x) → t ≠ [] → TailFrom 0 false t →
      Goods (ls ++ [t])
  | [], t, _, ht, htf => Goods.single ht htf
  | x :: ls, t, h, ht, htf =>
    Goods.cons (h x (by simp)).1 (h x (by simp)).2 (by simp)
      (goods_snoc ls t (fun z hz => h z (List.mem_cons_of_mem x hz)) ht htf)

/-- Lists whose head is not separator whitespace are fixed by the
whitespace skip. -/
theorem dropWhile_of_head_not_wsep {l : List Char}
    (h : ∀ c, l.head? = some c → isWsep c = false) : l.dropWhile isWsep = l := by
  match l with
  | [] => rfl
  | c :: t =>
    rw [List.dropWhile_cons, if_neg]
    simp [h c rfl]

/-- Consuming one chunk followed by a single separator space: the
tokenizer copies the chunk into the current item, flushes it at the
space, and continues after the space in the initial state. -/
theorem parse_chunk_step :
    ∀ {d : Int} {s : Bool} {item : List Char}, ChunkFrom d s item →
      ∀ (cur tail : List Char) (acc : List (List Char)),
        cur ++ item ≠ [] →
        (∀ c, tail.head? = some c → isWsep c = false) →
        parseAux (item ++ ' ' :: tail) cur d s acc
          = parseAux tail [] 0 false (acc ++ [cur ++ item]) := by
  intro d s item h
  induction h with
  | nil =>
    intro cur tail acc hne hhead
    have hcur : cur ≠ [] := by simpa using hne
    simp only [List.nil_append]
    rw [parseAux_sep ' ' tail cur acc rfl, if_neg hcur,
      dropWhile_of_head_not_wsep hhead]
    simp
  | esc c _ ih =>
    intro cur tail acc hne hhead
    simp only [List.cons_append]
    rw [parseAux_esc]
    have := ih (cur ++ ['\\', c]) tail acc (by simp) hhead
    simpa using this
  | quot _ ih =>
    intro cur tail acc hne hhead
    simp only [List.cons_append]
    rw [parseAux_quote]
    have := ih (cur ++ ['"']) tail acc (by simp) hhead
    simpa using this
  | openB _ ih =>
    intro cur tail acc hne hhead
    simp only [List.cons_append]
    rw [parseAux_open]
    have := ih (cur ++ ['{']) tail acc (by simp) hhead
    simpa using this
  | closeB _ ih =>
    intro cur tail acc hne hhead
    simp only [List.cons_append]
    rw [parseAux_close]
    have := ih (cur ++ ['}']) tail acc (by simp) hhead
    simpa using this
  | other c h1 h2 h3 h4 _ ih =>
    rename_i d2 s2 rest2 hpre
    intro cur tail acc hne hhead
    simp only [List.cons_append]
    cases s2 with
    | false =>
      rw [parseAux_other c (rest2 ++ ' ' :: tail) cur d2 acc (Or.inl h1) h2
        (h3 rfl).1 (h3 rfl).2 (fun hx => h4 ⟨rfl, hx.1, hx.2⟩)]
      have := ih (cur ++ [c]) tail acc (by simp) hhead
      simpa using this
    | true =>
      rw [parseAux_instr c (rest2 ++ ' ' :: tail) cur d2 acc (Or.inl h1) h2]
      have := ih (cur ++ [c]) tail acc (by simp) hhead
      simpa using this

/-- Consuming the final item: the tokenizer copies it into the current
item and flushes it at end of content. -/
theorem parse_tail_eq :
    ∀ {d : Int} {s : Bool} {item : List Char}, TailFrom d s item →
      ∀ (cur : List Char) (acc : List (List Char)),
        cur ++ item ≠ [] →
        parseAux item cur d s acc = acc ++ [cur ++ item] := by
  intro d s item h
  induction h with
  | nil =>
    intro cur acc hne
    rw [parseAux_nil, if_neg (by simpa using hne)]
    simp
  | lastBS =>
    rename_i d2 s2
    intro cur acc hne
    cases s2 with
    | false =>
      rw [parseAux_other '\\' [] cur d2 acc (Or.inr rfl) (by decide) (by decide) (by decide)
        (by rintro ⟨-, hw⟩; exact absurd hw (by decide))]
      rw [parseAux_nil, if_neg (by simp)]
    | true =>
      rw [parseAux_instr '\\' [] cur d2 acc (Or.inr rfl) (by decide)]
      rw [parseAux_nil, if_neg (by simp)]
  | esc c _ ih =>
    intro cur acc hne
    rw [parseAux_esc]
    have := ih (cur ++ ['\\', c]) acc (by simp)
    simpa using this
  | quot _ ih =>
    intro cur acc hne
    rw [parseAux_quote]
    have := ih (cur ++ ['"']) acc (by simp)
    simpa using this
  | openB _ ih =>
    intro cur acc hne
    rw [parseAux_open]
    have := ih (cur ++ ['{']) acc (by simp)
    simpa using this
  | closeB _ ih =>
    intro cur acc hne
    rw [parseAux_close]
    have := ih (cur ++ ['}']) acc (by simp)
    simpa using this
  | other c h1 h2 h3 h4 _ ih =>
    rename_i d2 s2 rest2 hpre
    intro cur acc hne
    cases s2 with
    | false =>
      rw [parseAux_other c rest2 cur d2 acc (Or.inl h1) h2
        (h3 rfl).1 (h3 rfl).2 (fun hx => h4 ⟨rfl, hx.1, hx.2⟩)]
      have := ih (cur ++ [c]) acc (by simp)
      simpa using this
    | true =>
      rw [parseAux_instr c rest2 cur d2 acc (Or.inl h1) h2]
      have := ih (cur ++ [c]) acc (by simp)
      simpa using this

end ListRoundTrip

namespace ListRoundTrip

open ListExpansionEngine

/-- Every run of the tokenizer loop produces a well-formed item list,
provided the already-consumed prefix `cur` extends chunks and tails from
the current state back to the initial state, and the accumulator holds
only non-empty chunks. -/
theorem parse_goods_aux :
    ∀ (n : Nat) (content : List Char), content.length ≤ n →
      ∀ (cur : List Char) (d : Int) (s : Bool) (acc : List (List Char)),
        (∀ r, ChunkFrom d s r → ChunkFrom 0 false (cur ++ r)) →
        (∀ r, TailFrom d s r → TailFrom 0 false (cur ++ r)) →
        (∀ x ∈ acc, x ≠ [] ∧ ChunkFrom 0 false x) →
        Goods (parseAux content cur d s acc) := by
  intro n
  induction n with
  | zero =>
    intro content hlen cur d s acc hc ht ha
    have hnil : content = [] := List.length_eq_zero.mp (Nat.le_zero.mp hlen)
    subst hnil
    rw [parseAux_nil]
    by_cases hcur : cur = []
    · rw [if_pos hcur]; exact goods_of_chunks acc ha
    · rw [if_neg hcur]
      exact goods_snoc acc cur ha hcur (by simpa using ht [] TailFrom.nil)
  | succ n ih =>
    intro content hlen cur d s acc hc ht ha
    match content with
    | [] =>
      rw [parseAux_nil]
      by_cases hcur : cur = []
      · rw [if_pos hcur]; exact goods_of_chunks acc ha
      · rw [if_neg hcur]
        exact goods_snoc acc cur ha hcur (by simpa using ht [] TailFrom.nil)
    | c :: rest =>
      have hlenr : rest.length ≤ n := by simp only [List.length_cons] at hlen; omega
      by_cases hesc : c = '\\' ∧ rest ≠ []
      · obtain ⟨rfl, hr⟩ := hesc
        match rest, hr, hlenr with
        | c2 :: rest2, _, hlenr2 =>
          rw [parseAux_esc]
          refine ih rest2 (by simp only [List.length_cons] at hlenr2; omega)
            _ d s acc ?_ ?_ ha
          · intro r hrk
            have := hc ('\\' :: c2 :: r) (ChunkFrom.esc c2 hrk)
            simpa using this
          · intro r hrk
            have := ht ('\\' :: c2 :: r) (TailFrom.esc c2 hrk)
            simpa using this
      · by_cases hq : c = '"'
        · subst hq
          rw [parseAux_quote]
          refine ih rest hlenr _ d (!s) acc ?_ ?_ ha
          · intro r hrk
            have := hc ('"' :: r) (ChunkFrom.quot hrk)
            simpa using this
          · intro r hrk
            have := ht ('"' :: r) (TailFrom.quot hrk)
            simpa using this
        · cases s with
          | true =>
            by_cases hb : c = '\\'
            · have hr : rest = [] := by
                by_contra hr; exact hesc ⟨hb, hr⟩
              subst hb; subst hr
              rw [parseAux_instr '\\' [] cur d acc (Or.inr rfl) hq]
              rw [parseAux_nil, if_neg (by simp)]
              exact goods_snoc acc _ ha (by simp)
                (by simpa using ht ['\\'] TailFrom.lastBS)
            · rw [parseAux_instr c rest cur d acc (Or.inl hb) hq]
              refine ih rest hlenr _ d true acc ?_ ?_ ha
              · intro r hrk
                have := hc (c :: r)
                  (ChunkFrom.other c hb hq (by simp) (by simp) hrk)
                simpa using this
              · intro r hrk
                have := ht (c :: r)
                  (TailFrom.other c hb hq (by simp) (by simp) hrk)
                simpa using this
          | false =>
            by_cases hob : c = '{'
            · subst hob
              rw [parseAux_open]
              refine ih rest hlenr _ (d + 1) false acc ?_ ?_ ha
              · intro r hrk
                have := hc ('{' :: r) (ChunkFrom.openB hrk)
                simpa using this
              · intro r hrk
                have := ht ('{' :: r) (TailFrom.openB hrk)
                simpa using this
            · by_cases hcb : c = '}'
              · subst hcb
                rw [parseAux_close]
                refine ih rest hlenr _ (d - 1) false acc ?_ ?_ ha
                · intro r hrk
                  have := hc ('}' :: r) (ChunkFrom.closeB hrk)
                  simpa using this
                · intro r hrk
                  have := ht ('}' :: r) (TailFrom.closeB hrk)
                  simpa using this
              · by_cases hsep : d = 0 ∧ isWsep c = true
                · obtain ⟨hd0, hw⟩ := hsep
                  subst hd0
                  rw [parseAux_sep c rest cur acc hw]
                  refine ih (rest.dropWhile isWsep)
                    (le_trans (dropWhile_wsep_length_le rest) hlenr)
                    [] 0 false _ ?_ ?_ ?_
                  · intro r hrk; simpa using hrk
                  · intro r hrk; simpa using hrk
                  · intro x hx
                    by_cases hcur : cur = []
                    · rw [if_pos hcur] at hx; exact ha x hx
                    · rw [if_neg hcur] at hx
                      rcases List.mem_append.mp hx with hx | hx
                      · exact ha x hx
                      · have hxc : x = cur := by simpa using hx
                        subst hxc
                        exact ⟨hcur, by simpa using hc [] ChunkFrom.nil⟩
                · by_cases hb : c = '\\'
                  · have hr : rest = [] := by
                      by_contra hr; exact hesc ⟨hb, hr⟩
                    subst hb; subst hr
                    rw [parseAux_other '\\' [] cur d acc (Or.inr rfl) hq hob hcb hsep]
                    rw [parseAux_nil, if_neg (by simp)]
                    exact goods_snoc acc _ ha (by simp)
                      (by simpa using ht ['\\'] TailFrom.lastBS)
                  · rw [parseAux_other c rest cur d acc (Or.inl hb) hq hob hcb hsep]
                    refine ih rest hlenr _ d false acc ?_ ?_ ha
                    · intro r hrk
                      have := hc (c :: r)
                        (ChunkFrom.other c hb hq (fun _ => ⟨hob, hcb⟩)
                          (by rintro ⟨-, hd0, hw⟩; exact hsep ⟨hd0, hw⟩) hrk)
                      simpa using this
                    · intro r hrk
                      have := ht (c :: r)
                        (TailFrom.other c hb hq (fun _ => ⟨hob, hcb⟩)
                          (by rintro ⟨-, hd0, hw⟩; exact hsep ⟨hd0, hw⟩) hrk)
                      simpa using this

/-- Unfolding the single-space rejoin over a non-trivial cons. -/
theorem joinSp_cons {l : List Char} {ls : List (List Char)} (h : ls ≠ []) :
    joinSp (l :: ls) = l ++ ' ' :: joinSp ls := by
  match ls with
  | [] => exact absurd rfl h
  | x :: ls2 => rfl

/-- The rejoined text of a well-formed item list never starts with
separator whitespace. -/
theorem goods_joinSp_head {ls : List (List Char)} (h : Goods ls) :
    ∀ c, (joinSp ls).head? = some c → isWsep c = false := by
  cases h with
  | nil => intro c hc; simp [joinSp] at hc
  | single hne htf =>
    intro c hc
    exact tailFrom_head_not_wsep htf c (by simpa [joinSp] using hc)
  | cons hne hch hlsne hg =>
    rename_i l ls2
    intro c hc
    rw [joinSp_cons hlsne] at hc
    refine chunkFrom_head_not_wsep hch c ?_
    match l, hne with
    | c0 :: t, _ => simpa using hc

/-- Re-tokenizing the single-space rejoin of a well-formed item list
returns exactly the same items. -/
theorem goods_join : ∀ {items : List (List Char)}, Goods items →
    parse_list_items (joinSp items) = items := by
  intro items h
  induction h with
  | nil => simp [parse_list_items, joinSp, parseAux_nil]
  | single hne htf =>
    rename_i l
    have := parse_tail_eq htf [] [] (by simpa using hne)
    simpa [parse_list_items, joinSp] using this
  | cons hne hch hlsne hg ih =>
    rename_i l ls2
    rw [joinSp_cons hlsne]
    unfold parse_list_items
    rw [parse_chunk_step hch [] (joinSp ls2) [] (by simpa using hne)
      (goods_joinSp_head hg)]
    rw [parseAux_acc (joinSp ls2).length (joinSp ls2) le_rfl [] 0 false ([] ++ [[] ++ l])]
    rw [show parseAux (joinSp ls2) [] 0 false [] = parse_list_items (joinSp ls2) from rfl]
    rw [ih]
    simp

end ListRoundTrip

/-- **C8** — Round-trip stability of the nested-aware tokenizer: for
every list-content string, re-tokenizing the string obtained by rejoining
the items of `_parse_list_items` with single spaces yields exactly the
same ordered item list. -/
theorem parse_list_items_roundtrip (content : List Char) :
    ListExpansionEngine.parse_list_items
        (ListRoundTrip.joinSp (ListExpansionEngine.parse_list_items content))
      = ListExpansionEngine.parse_list_items content :=
  ListRoundTrip.goods_join
    (ListRoundTrip.parse_goods_aux content.length content le_rfl [] 0 false []
      (fun r h => by simpa using h) (fun r h => by simpa using h) (by simp))
